import Mathlib

/-!
Verification of the `refinements` combinator library.

The runtime model: a refinement over `T` is a boolean predicate `T → Bool`
(the TypeScript type-guard aspect is a compile-time property and erases at
runtime).  `Refinement.create` turns a classifier `T → Result U` into such a
predicate by testing whether the classifier returned a `hit`.  `pipe` and
`either` fold a list of refinements with short-circuit AND resp. OR, exactly
mirroring the source's `reduce` calls, and `not` is boolean complement.

Besides the plain boolean model we embed three refined views of the same
source lines:

* an instrumented evaluator (`pipeLog` / `eitherLog`) that records the index
  of every refinement actually invoked, reflecting JavaScript's short-circuit
  evaluation of `&&` / `||` inside the `reduce` callback — this makes the
  "later stages are never invoked" claims statable;
* a fallible evaluator (`pipeE` / `eitherE` and their logged variants) where
  a refinement may raise, modelling a throwing classifier with `Except`;
* a big-step evaluation relation (`PipeRel` / `EitherRel`) over possibly
  nondeterministic, possibly undefined refinements, used to show the
  combinators preserve totality and determinism.
-/

namespace Refinements

/-- The two-case classifier outcome: `Hit` carries the recognized value,
`Miss` carries nothing. -/
inductive Result (U : Type) where
  | hit (value : U)
  | miss
deriving DecidableEq

/-- `Refinement.create`: builds the predicate `candidate => refine(candidate) instanceof Hit`. -/
def Refinement.create {T U : Type} (refine : T → Result U) : T → Bool :=
  fun candidate =>
    match refine candidate with
    | Result.hit _ => true
    | Result.miss => false

/-- `pipe`: `refinements.reduce((verdict, refinement) => verdict && refinement(candidate), true)`. -/
def pipe {T : Type} (refinements : List (T → Bool)) : T → Bool :=
  fun candidate =>
    refinements.foldl (fun verdict refinement => verdict && refinement candidate) true

/-- `either`: `refinements.reduce((verdict, refinement) => verdict || refinement(candidate), false)`. -/
def either {T : Type} (refinements : List (T → Bool)) : T → Bool :=
  fun candidate =>
    refinements.foldl (fun verdict refinement => verdict || refinement candidate) false

/-- `not`: `candidate => !refinement(candidate)`. -/
def not {T : Type} (refinement : T → Bool) : T → Bool :=
  fun candidate => !(refinement candidate)

/-- Instrumented run of `pipe`'s fold: JavaScript evaluates
`verdict && refinement(candidate)` by invoking `refinement` only when
`verdict` is `true`.  The second component records, in order, the indices of
the refinements that were invoked; `n` is the index of the first refinement
of the remaining list. -/
def pipeLog {T : Type} (x : T) :
    List (T → Bool) → Nat → Bool → List Nat → Bool × List Nat
  | [], _, verdict, log => (verdict, log)
  | r :: rs, n, verdict, log =>
      if verdict then pipeLog x rs (n + 1) (r x) (log ++ [n])
      else pipeLog x rs (n + 1) verdict log

/-- Instrumented run of `either`'s fold: `verdict || refinement(candidate)`
invokes `refinement` only when `verdict` is `false`. -/
def eitherLog {T : Type} (x : T) :
    List (T → Bool) → Nat → Bool → List Nat → Bool × List Nat
  | [], _, verdict, log => (verdict, log)
  | r :: rs, n, verdict, log =>
      if verdict then eitherLog x rs (n + 1) verdict log
      else eitherLog x rs (n + 1) (r x) (log ++ [n])

/-- Invocation log of `pipe refinements` on `x`: verdict plus invoked indices. -/
def pipeRun {T : Type} (refinements : List (T → Bool)) (x : T) : Bool × List Nat :=
  pipeLog x refinements 0 true []

/-- Invocation log of `either refinements` on `x`: verdict plus invoked indices. -/
def eitherRun {T : Type} (refinements : List (T → Bool)) (x : T) : Bool × List Nat :=
  eitherLog x refinements 0 false []

end Refinements

namespace Refinements

theorem pipeLog_false {T : Type} (x : T) :
    ∀ (rs : List (T → Bool)) (n : Nat) (log : List Nat),
      pipeLog x rs n false log = (false, log) := by
  intro rs
  induction rs with
  | nil => intro n log; rfl
  | cons r rs ih => intro n log; simp [pipeLog, ih]

theorem eitherLog_true {T : Type} (x : T) :
    ∀ (rs : List (T → Bool)) (n : Nat) (log : List Nat),
      eitherLog x rs n true log = (true, log) := by
  intro rs
  induction rs with
  | nil => intro n log; rfl
  | cons r rs ih => intro n log; simp [eitherLog, ih]

theorem pipe_foldl_and {T : Type} (x : T) :
    ∀ (rs : List (T → Bool)) (b : Bool),
      rs.foldl (fun verdict refinement => verdict && refinement x) b
        = (b && rs.all (fun r => r x)) := by
  intro rs
  induction rs with
  | nil => intro b; simp
  | cons r rs ih => intro b; simp [List.foldl, ih, Bool.and_assoc]

theorem either_foldl_or {T : Type} (x : T) :
    ∀ (rs : List (T → Bool)) (b : Bool),
      rs.foldl (fun verdict refinement => verdict || refinement x) b
        = (b || rs.any (fun r => r x)) := by
  intro rs
  induction rs with
  | nil => intro b; simp
  | cons r rs ih => intro b; simp [List.foldl, ih, Bool.or_assoc]

end Refinements

/-- Claim C1 (construction correctness): for every predicate `P` and every
classifier that returns `hit x` when `P x` holds and `miss` otherwise, the
predicate `Refinement.create classifier` returns `true` on `x` exactly when
`P x` holds, for all `x`. -/
theorem create_correct {T U : Type} (P : T → Prop) (classify : T → Refinements.Result U)
    (h : ∀ x, (P x → ∃ v, classify x = Refinements.Result.hit v) ∧
              (¬ P x → classify x = Refinements.Result.miss)) :
    ∀ x, Refinements.Refinement.create classify x = true ↔ P x := by
  intro x
  constructor
  · intro htrue
    by_contra hnp
    have hmiss := (h x).2 hnp
    simp [Refinements.Refinement.create, hmiss] at htrue
  · intro hp
    obtain ⟨v, hv⟩ := (h x).1 hp
    simp [Refinements.Refinement.create, hv]

/-- Witness for C1: the classifier for `x = 0` over `Nat`. -/
theorem create_correct_witness :
    Refinements.Refinement.create
      (fun x : Nat => if x = 0 then Refinements.Result.hit x else Refinements.Result.miss)
      0 = true ↔ (0 : Nat) = 0 := by
  refine create_correct (fun x : Nat => x = 0)
    (fun x => if x = 0 then Refinements.Result.hit x else Refinements.Result.miss) ?_ 0
  intro x
  constructor
  · intro hx
    exact ⟨x, by simp [hx]⟩
  · intro hx
    simp [hx]

/-- Claim C2 (compose conjunction): for every non-empty chain of refinements
and every input `x`, `pipe rs x` equals the short-circuit conjunction of the
individual verdicts, i.e. `rs.all (fun r => r x)`. -/
theorem pipe_conjunction {T : Type} (rs : List (T → Bool)) (x : T)
    (hne : rs ≠ []) : Refinements.pipe rs x = rs.all (fun r => r x) := by
  simp [Refinements.pipe, Refinements.pipe_foldl_and]

/-- Witness for C2: a two-stage chain over `Nat` evaluated at `4`. -/
theorem pipe_conjunction_witness :
    Refinements.pipe [fun n : Nat => decide (n > 1), fun n : Nat => decide (n > 3)] 4
      = [fun n : Nat => decide (n > 1), fun n : Nat => decide (n > 3)].all (fun r => r 4) :=
  pipe_conjunction [fun n : Nat => decide (n > 1), fun n : Nat => decide (n > 3)] 4 (by simp)

/-- Claim C4 (either disjunction): for every list of refinements sharing the
same input type and every input `x`, `either rs x` equals the short-circuit
disjunction of the individual verdicts, i.e. `rs.any (fun r => r x)`; in
particular it is `false` exactly when every refinement rejects `x`. -/
theorem either_disjunction {T : Type} (rs : List (T → Bool)) (x : T) :
    Refinements.either rs x = rs.any (fun r => r x) := by
  simp [Refinements.either, Refinements.either_foldl_or]

/-- Claim C6 (compose identity): a single-element chain `pipe [r]` agrees
with `r` on every input, and evaluating it invokes `r` exactly once (the
invocation log is `[0]`). -/
theorem pipe_identity {T : Type} (r : T → Bool) (x : T) :
    Refinements.pipe [r] x = r x ∧ Refinements.pipeRun [r] x = (r x, [0]) := by
  constructor
  · simp [Refinements.pipe]
  · simp [Refinements.pipeRun, Refinements.pipeLog]

/-- Claim C7 (negation complement): `not r x` is the boolean negation of
`r x`, for every refinement `r` and every `x` of the input type. -/
theorem not_complement {T : Type} (r : T → Bool) (x : T) :
    Refinements.not r x = !(r x) := rfl

/-- Claim C10 (empty-list edge case): called on an empty list of refinements,
`pipe` yields the constantly-true predicate and `either` the constantly-false
predicate (the identity elements of the two folds). -/
theorem empty_list_edge {T : Type} (x : T) :
    Refinements.pipe ([] : List (T → Bool)) x = true ∧
    Refinements.either ([] : List (T → Bool)) x = false := by
  exact ⟨rfl, rfl⟩

namespace Refinements

theorem pipeLog_no_late {T : Type} (x : T) :
    ∀ (rs : List (T → Bool)) (i : Nat) (hi : i < rs.length),
      rs.get ⟨i, hi⟩ x = false →
      ∀ (n : Nat) (verdict : Bool) (log : List Nat) (j : Nat),
        n + i < j → (∀ m ∈ log, m < j) → j ∉ (pipeLog x rs n verdict log).2 := by
  intro rs
  induction rs with
  | nil => intro i hi; exact absurd hi (by simp)
  | cons r rs ih =>
    intro i hi hfalse n verdict log j hj hlog
    cases i with
    | zero =>
      have hr : r x = false := hfalse
      cases verdict with
      | false =>
        simp only [pipeLog, if_neg Bool.false_ne_true, pipeLog_false]
        intro hmem
        exact absurd (hlog j hmem) (by simp)
      | true =>
        simp only [pipeLog, if_pos rfl, hr, pipeLog_false]
        intro hmem
        rcases List.mem_append.mp hmem with hl | hn
        · exact absurd (hlog j hl) (by simp)
        · have : j = n := by simpa using hn
          subst this
          exact absurd hj (by simp)
    | succ k =>
      have hk : k < rs.length := Nat.lt_of_succ_lt_succ hi
      have hfalse' : rs.get ⟨k, hk⟩ x = false := hfalse
      cases verdict with
      | false =>
        simp only [pipeLog, if_neg Bool.false_ne_true, pipeLog_false]
        intro hmem
        exact absurd (hlog j hmem) (by simp)
      | true =>
        simp only [pipeLog, if_pos rfl]
        refine ih k hk hfalse' (n + 1) (r x) (log ++ [n]) j (by omega) ?_
        intro m hm
        rcases List.mem_append.mp hm with hl | hn
        · exact hlog m hl
        · have : m = n := by simpa using hn
          subst this
          omega

theorem eitherLog_no_late {T : Type} (x : T) :
    ∀ (rs : List (T → Bool)) (i : Nat) (hi : i < rs.length),
      rs.get ⟨i, hi⟩ x = true →
      ∀ (n : Nat) (verdict : Bool) (log : List Nat) (j : Nat),
        n + i < j → (∀ m ∈ log, m < j) → j ∉ (eitherLog x rs n verdict log).2 := by
  intro rs
  induction rs with
  | nil => intro i hi; exact absurd hi (by simp)
  | cons r rs ih =>
    intro i hi htrue n verdict log j hj hlog
    cases i with
    | zero =>
      have hr : r x = true := htrue
      cases verdict with
      | true =>
        simp only [eitherLog, if_pos rfl, eitherLog_true]
        intro hmem
        exact absurd (hlog j hmem) (by simp)
      | false =>
        simp only [eitherLog, if_neg Bool.false_ne_true, hr, eitherLog_true]
        intro hmem
        rcases List.mem_append.mp hmem with hl | hn
        · exact absurd (hlog j hl) (by simp)
        · have : j = n := by simpa using hn
          subst this
          exact absurd hj (by simp)
    | succ k =>
      have hk : k < rs.length := Nat.lt_of_succ_lt_succ hi
      have htrue' : rs.get ⟨k, hk⟩ x = true := htrue
      cases verdict with
      | true =>
        simp only [eitherLog, if_pos rfl, eitherLog_true]
        intro hmem
        exact absurd (hlog j hmem) (by simp)
      | false =>
        simp only [eitherLog, if_neg Bool.false_ne_true]
        refine ih k hk htrue' (n + 1) (r x) (log ++ [n]) j (by omega) ?_
        intro m hm
        rcases List.mem_append.mp hm with hl | hn
        · exact hlog m hl
        · have : m = n := by simpa using hn
          subst this
          omega

end Refinements

/-- Claim C3 (compose short-circuit): if stage `i` of a chain returns `false`
on `x`, then no later stage `j > i` is ever invoked when evaluating
`pipe` on `x` — `j` never appears in the invocation log. -/
theorem pipe_short_circuit {T : Type} (rs : List (T → Bool)) (x : T) (i j : Nat)
    (hi : i < rs.length) (hfalse : rs.get ⟨i, hi⟩ x = false) (hij : i < j) :
    j ∉ (Refinements.pipeRun rs x).2 := by
  refine Refinements.pipeLog_no_late x rs i hi hfalse 0 true [] j (by omega) ?_
  intro m hm
  exact absurd hm (List.not_mem_nil m)

/-- Witness for C3: a two-stage chain whose first stage rejects; stage `1`
is not invoked. -/
theorem pipe_short_circuit_witness :
    (1 : Nat) ∉ (Refinements.pipeRun [fun _ : Nat => false, fun _ : Nat => true] 0).2 :=
  pipe_short_circuit [fun _ : Nat => false, fun _ : Nat => true] 0 0 1
    (by simp) rfl (by simp)

/-- Claim C5 (either short-circuit): if sibling `i` returns `true` on `x`,
then no later sibling `j > i` is invoked when evaluating `either` on `x` —
`j` never appears in the invocation log; all siblings are evaluated only when
every one rejects. -/
theorem either_short_circuit {T : Type} (rs : List (T → Bool)) (x : T) (i j : Nat)
    (hi : i < rs.length) (htrue : rs.get ⟨i, hi⟩ x = true) (hij : i < j) :
    j ∉ (Refinements.eitherRun rs x).2 := by
  refine Refinements.eitherLog_no_late x rs i hi htrue 0 false [] j (by omega) ?_
  intro m hm
  exact absurd hm (List.not_mem_nil m)

/-- Witness for C5: a two-sibling alternation whose first sibling accepts;
sibling `1` is not invoked. -/
theorem either_short_circuit_witness :
    (1 : Nat) ∉ (Refinements.eitherRun [fun _ : Nat => true, fun _ : Nat => false] 0).2 :=
  either_short_circuit [fun _ : Nat => true, fun _ : Nat => false] 0 0 1
    (by simp) rfl (by simp)

namespace Refinements

/-- Fallible variant of `pipe`: a refinement may raise (model of a throwing
classifier).  The fold threads a raised error through unchanged and invokes
the next refinement only on an `ok true` verdict, mirroring how an exception
thrown inside the `reduce` callback aborts the fold. -/
def pipeE {T E : Type} (refinements : List (T → Except E Bool)) : T → Except E Bool :=
  fun candidate =>
    refinements.foldl
      (fun verdict refinement =>
        match verdict with
        | Except.error e => Except.error e
        | Except.ok b => if b then refinement candidate else Except.ok b)
      (Except.ok true)

/-- Fallible variant of `either`: the next refinement is invoked only on an
`ok false` verdict; a raised error threads through unchanged. -/
def eitherE {T E : Type} (refinements : List (T → Except E Bool)) : T → Except E Bool :=
  fun candidate =>
    refinements.foldl
      (fun verdict refinement =>
        match verdict with
        | Except.error e => Except.error e
        | Except.ok b => if b then Except.ok b else refinement candidate)
      (Except.ok false)

/-- Instrumented fallible run of `pipe`: records the invoked indices. -/
def pipeELog {T E : Type} (x : T) :
    List (T → Except E Bool) → Nat → Except E Bool → List Nat →
      Except E Bool × List Nat
  | [], _, verdict, log => (verdict, log)
  | r :: rs, n, verdict, log =>
      match verdict with
      | Except.error e => pipeELog x rs (n + 1) (Except.error e) log
      | Except.ok b =>
          if b then pipeELog x rs (n + 1) (r x) (log ++ [n])
          else pipeELog x rs (n + 1) (Except.ok b) log

/-- Instrumented fallible run of `either`: records the invoked indices. -/
def eitherELog {T E : Type} (x : T) :
    List (T → Except E Bool) → Nat → Except E Bool → List Nat →
      Except E Bool × List Nat
  | [], _, verdict, log => (verdict, log)
  | r :: rs, n, verdict, log =>
      match verdict with
      | Except.error e => eitherELog x rs (n + 1) (Except.error e) log
      | Except.ok b =>
          if b then eitherELog x rs (n + 1) (Except.ok b) log
          else eitherELog x rs (n + 1) (r x) (log ++ [n])

/-- Full fallible run of `pipe refinements` on `x`. -/
def pipeERun {T E : Type} (refinements : List (T → Except E Bool)) (x : T) :
    Except E Bool × List Nat :=
  pipeELog x refinements 0 (Except.ok true) []

/-- Full fallible run of `either refinements` on `x`. -/
def eitherERun {T E : Type} (refinements : List (T → Except E Bool)) (x : T) :
    Except E Bool × List Nat :=
  eitherELog x refinements 0 (Except.ok false) []

theorem pipeELog_error {T E : Type} (x : T) (e : E) :
    ∀ (rs : List (T → Except E Bool)) (n : Nat) (log : List Nat),
      pipeELog x rs n (Except.error e) log = (Except.error e, log) := by
  intro rs
  induction rs with
  | nil => intro n log; rfl
  | cons r rs ih => intro n log; simp [pipeELog, ih]

theorem eitherELog_error {T E : Type} (x : T) (e : E) :
    ∀ (rs : List (T → Except E Bool)) (n : Nat) (log : List Nat),
      eitherELog x rs n (Except.error e) log = (Except.error e, log) := by
  intro rs
  induction rs with
  | nil => intro n log; rfl
  | cons r rs ih => intro n log; simp [eitherELog, ih]

theorem pipeELog_fst {T E : Type} (x : T) :
    ∀ (rs : List (T → Except E Bool)) (n : Nat) (v : Except E Bool) (log : List Nat),
      (pipeELog x rs n v log).1
        = rs.foldl
            (fun verdict refinement =>
              match verdict with
              | Except.error e => Except.error e
              | Except.ok b => if b then refinement x else Except.ok b) v := by
  intro rs
  induction rs with
  | nil => intro n v log; rfl
  | cons r rs ih =>
    intro n v log
    cases v with
    | error e => simp [pipeELog, List.foldl, ih]
    | ok b => cases b <;> simp [pipeELog, List.foldl, ih]

theorem eitherELog_fst {T E : Type} (x : T) :
    ∀ (rs : List (T → Except E Bool)) (n : Nat) (v : Except E Bool) (log : List Nat),
      (eitherELog x rs n v log).1
        = rs.foldl
            (fun verdict refinement =>
              match verdict with
              | Except.error e => Except.error e
              | Except.ok b => if b then Except.ok b else refinement x) v := by
  intro rs
  induction rs with
  | nil => intro n v log; rfl
  | cons r rs ih =>
    intro n v log
    cases v with
    | error e => simp [eitherELog, List.foldl, ih]
    | ok b => cases b <;> simp [eitherELog, List.foldl, ih]

theorem pipeELog_cons_ok_true {T E : Type} (x : T) (r : T → Except E Bool)
    (rs : List (T → Except E Bool)) (n : Nat) (log : List Nat) :
    pipeELog x (r :: rs) n (Except.ok true) log
      = pipeELog x rs (n + 1) (r x) (log ++ [n]) := rfl

theorem eitherELog_cons_ok_false {T E : Type} (x : T) (r : T → Except E Bool)
    (rs : List (T → Except E Bool)) (n : Nat) (log : List Nat) :
    eitherELog x (r :: rs) n (Except.ok false) log
      = eitherELog x rs (n + 1) (r x) (log ++ [n]) := rfl

theorem pipeELog_pre {T E : Type} (x : T) :
    ∀ (pre : List (T → Except E Bool)), (∀ r ∈ pre, r x = Except.ok true) →
      ∀ (rest : List (T → Except E Bool)) (n : Nat) (log : List Nat),
        pipeELog x (pre ++ rest) n (Except.ok true) log
          = pipeELog x rest (n + pre.length) (Except.ok true)
              (log ++ List.range' n pre.length) := by
  intro pre
  induction pre with
  | nil => intro _ rest n log; simp [List.range']
  | cons r pre ih =>
    intro hpre rest n log
    have hr : r x = Except.ok true := hpre r (by simp)
    have hstep : pipeELog x ((r :: pre) ++ rest) n (Except.ok true) log
        = pipeELog x (pre ++ rest) (n + 1) (r x) (log ++ [n]) := rfl
    rw [hstep, hr, ih (fun r' hr' => hpre r' (by simp [hr'])) rest (n + 1) (log ++ [n])]
    have harith : n + 1 + pre.length = n + (r :: pre).length := by
      simp only [List.length_cons]
      omega
    have hlist : (log ++ [n]) ++ List.range' (n + 1) pre.length
        = log ++ List.range' n (r :: pre).length := by
      rw [List.append_assoc]
      rfl
    rw [harith, hlist]

theorem eitherELog_pre {T E : Type} (x : T) :
    ∀ (pre : List (T → Except E Bool)), (∀ r ∈ pre, r x = Except.ok false) →
      ∀ (rest : List (T → Except E Bool)) (n : Nat) (log : List Nat),
        eitherELog x (pre ++ rest) n (Except.ok false) log
          = eitherELog x rest (n + pre.length) (Except.ok false)
              (log ++ List.range' n pre.length) := by
  intro pre
  induction pre with
  | nil => intro _ rest n log; simp [List.range']
  | cons r pre ih =>
    intro hpre rest n log
    have hr : r x = Except.ok false := hpre r (by simp)
    have hstep : eitherELog x ((r :: pre) ++ rest) n (Except.ok false) log
        = eitherELog x (pre ++ rest) (n + 1) (r x) (log ++ [n]) := rfl
    rw [hstep, hr, ih (fun r' hr' => hpre r' (by simp [hr'])) rest (n + 1) (log ++ [n])]
    have harith : n + 1 + pre.length = n + (r :: pre).length := by
      simp only [List.length_cons]
      omega
    have hlist : (log ++ [n]) ++ List.range' (n + 1) pre.length
        = log ++ List.range' n (r :: pre).length := by
      rw [List.append_assoc]
      rfl
    rw [harith, hlist]

theorem pipeERun_fail {T E : Type} (x : T) (e : E)
    (pre post : List (T → Except E Bool)) (fail : T → Except E Bool)
    (hfail : fail x = Except.error e)
    (hpre : ∀ r ∈ pre, r x = Except.ok true) :
    pipeERun (pre ++ fail :: post) x
      = (Except.error e, List.range' 0 pre.length ++ [pre.length]) := by
  unfold pipeERun
  rw [pipeELog_pre x pre hpre (fail :: post) 0 []]
  simp [pipeELog, hfail, pipeELog_error]

theorem eitherERun_fail {T E : Type} (x : T) (e : E)
    (pre post : List (T → Except E Bool)) (fail : T → Except E Bool)
    (hfail : fail x = Except.error e)
    (hpre : ∀ r ∈ pre, r x = Except.ok false) :
    eitherERun (pre ++ fail :: post) x
      = (Except.error e, List.range' 0 pre.length ++ [pre.length]) := by
  unfold eitherERun
  rw [eitherELog_pre x pre hpre (fail :: post) 0 []]
  simp [eitherELog, hfail, eitherELog_error]

end Refinements

/-- Claim C8 (error propagation): when a stage (or sibling) raises during
evaluation of `pipe` or `either` on `x` — here, the stage `fail` reached
after a run of accepting (resp. rejecting) stages `pre` — the combinator
returns exactly that error, unchanged (not caught, wrapped, or turned into a
`false`/miss verdict), and no later stage or sibling (index beyond `fail`'s
position `pre.length`) is ever invoked. -/
theorem error_propagation {T E : Type} (x : T) (e : E)
    (pre post : List (T → Except E Bool)) (fail : T → Except E Bool)
    (hfail : fail x = Except.error e) :
    ((∀ r ∈ pre, r x = Except.ok true) →
        Refinements.pipeE (pre ++ fail :: post) x = Except.error e ∧
        ∀ j, pre.length < j →
          j ∉ (Refinements.pipeERun (pre ++ fail :: post) x).2) ∧
    ((∀ r ∈ pre, r x = Except.ok false) →
        Refinements.eitherE (pre ++ fail :: post) x = Except.error e ∧
        ∀ j, pre.length < j →
          j ∉ (Refinements.eitherERun (pre ++ fail :: post) x).2) := by
  constructor
  · intro hpre
    have hrun := Refinements.pipeERun_fail x e pre post fail hfail hpre
    constructor
    · have hfst : Refinements.pipeE (pre ++ fail :: post) x
          = (Refinements.pipeERun (pre ++ fail :: post) x).1 :=
        (Refinements.pipeELog_fst x (pre ++ fail :: post) 0 (Except.ok true) []).symm
      rw [hfst, hrun]
    · intro j hj
      rw [hrun]
      intro hmem
      rcases List.mem_append.mp hmem with hr | hl
      · have := (List.mem_range'_1.mp hr).2
        omega
      · have : j = pre.length := by simpa using hl
        omega
  · intro hpre
    have hrun := Refinements.eitherERun_fail x e pre post fail hfail hpre
    constructor
    · have hfst : Refinements.eitherE (pre ++ fail :: post) x
          = (Refinements.eitherERun (pre ++ fail :: post) x).1 :=
        (Refinements.eitherELog_fst x (pre ++ fail :: post) 0 (Except.ok false) []).symm
      rw [hfst, hrun]
    · intro j hj
      rw [hrun]
      intro hmem
      rcases List.mem_append.mp hmem with hr | hl
      · have := (List.mem_range'_1.mp hr).2
        omega
      · have : j = pre.length := by simpa using hl
        omega

/-- Witness for C8: a single raising stage; both combinators return the
error unchanged. -/
theorem error_propagation_witness :
    Refinements.pipeE [fun _ : Nat => (Except.error 7 : Except Nat Bool)] 0
      = Except.error 7 ∧
    Refinements.eitherE [fun _ : Nat => (Except.error 7 : Except Nat Bool)] 0
      = Except.error 7 := by
  have h := error_propagation 0 7 [] []
    (fun _ : Nat => (Except.error 7 : Except Nat Bool)) rfl
  exact ⟨(h.1 (by simp)).1, (h.2 (by simp)).1⟩

namespace Refinements

/-- Big-step evaluation of `pipe`'s fold over refinements given as relations
`T → Bool → Prop` (a refinement may in general be undefined or ambiguous at
some input; a function `r : T → Bool` corresponds to the relation
`fun x b => r x = b`).  The fold starts from verdict `true`; a `false`
verdict freezes the remaining stages. -/
inductive PipeRel {T : Type} : List (T → Bool → Prop) → T → Bool → Prop
  | nil (x : T) : PipeRel [] x true
  | headFalse (r : T → Bool → Prop) (rs : List (T → Bool → Prop)) (x : T) :
      r x false → PipeRel (r :: rs) x false
  | headTrue (r : T → Bool → Prop) (rs : List (T → Bool → Prop)) (x : T) (b : Bool) :
      r x true → PipeRel rs x b → PipeRel (r :: rs) x b

/-- Big-step evaluation of `either`'s fold over relational refinements: the
fold starts from verdict `false`; a `true` verdict freezes the remaining
siblings. -/
inductive EitherRel {T : Type} : List (T → Bool → Prop) → T → Bool → Prop
  | nil (x : T) : EitherRel [] x false
  | headTrue (r : T → Bool → Prop) (rs : List (T → Bool → Prop)) (x : T) :
      r x true → EitherRel (r :: rs) x true
  | headFalse (r : T → Bool → Prop) (rs : List (T → Bool → Prop)) (x : T) (b : Bool) :
      r x false → EitherRel rs x b → EitherRel (r :: rs) x b

/-- Agreement with the executable fold: on function-backed refinements,
`PipeRel` relates exactly the verdict computed by `pipe`. -/
theorem pipeRel_agrees {T : Type} :
    ∀ (rs : List (T → Bool)) (x : T),
      PipeRel (rs.map (fun r x b => r x = b)) x (pipe rs x) := by
  intro rs
  induction rs with
  | nil => intro x; exact PipeRel.nil x
  | cons r rs ih =>
    intro x
    have hpipe : pipe (r :: rs) x = (r x && rs.all (fun s => s x)) := by
      simp [pipe, List.foldl, pipe_foldl_and]
    cases hb : r x with
    | false =>
      have : pipe (r :: rs) x = false := by simp [hpipe, hb]
      rw [this, List.map_cons]
      exact PipeRel.headFalse _ _ x hb
    | true =>
      have : pipe (r :: rs) x = pipe rs x := by
        simp [hpipe, hb, pipe, pipe_foldl_and]
      rw [this, List.map_cons]
      exact PipeRel.headTrue _ _ x (pipe rs x) hb (ih x)

/-- Agreement with the executable fold: on function-backed refinements,
`EitherRel` relates exactly the verdict computed by `either`. -/
theorem eitherRel_agrees {T : Type} :
    ∀ (rs : List (T → Bool)) (x : T),
      EitherRel (rs.map (fun r x b => r x = b)) x (either rs x) := by
  intro rs
  induction rs with
  | nil => intro x; exact EitherRel.nil x
  | cons r rs ih =>
    intro x
    have heither : either (r :: rs) x = (r x || rs.any (fun s => s x)) := by
      simp [either, List.foldl, either_foldl_or]
    cases hb : r x with
    | true =>
      have : either (r :: rs) x = true := by simp [heither, hb]
      rw [this, List.map_cons]
      exact EitherRel.headTrue _ _ x hb
    | false =>
      have : either (r :: rs) x = either rs x := by
        simp [heither, hb, either, either_foldl_or]
      rw [this, List.map_cons]
      exact EitherRel.headFalse _ _ x (either rs x) hb (ih x)

theorem pipeRel_total {T : Type} :
    ∀ (rs : List (T → Bool → Prop)), (∀ r ∈ rs, ∀ x, ∃ b, r x b) →
      ∀ x, ∃ b, PipeRel rs x b := by
  intro rs
  induction rs with
  | nil => intro _ x; exact ⟨true, PipeRel.nil x⟩
  | cons r rs ih =>
    intro htot x
    obtain ⟨b, hb⟩ := htot r (by simp) x
    cases b with
    | false => exact ⟨false, PipeRel.headFalse r rs x hb⟩
    | true =>
      obtain ⟨b', hb'⟩ := ih (fun r' hr' x' => htot r' (by simp [hr']) x') x
      exact ⟨b', PipeRel.headTrue r rs x b' hb hb'⟩

theorem eitherRel_total {T : Type} :
    ∀ (rs : List (T → Bool → Prop)), (∀ r ∈ rs, ∀ x, ∃ b, r x b) →
      ∀ x, ∃ b, EitherRel rs x b := by
  intro rs
  induction rs with
  | nil => intro _ x; exact ⟨false, EitherRel.nil x⟩
  | cons r rs ih =>
    intro htot x
    obtain ⟨b, hb⟩ := htot r (by simp) x
    cases b with
    | true => exact ⟨true, EitherRel.headTrue r rs x hb⟩
    | false =>
      obtain ⟨b', hb'⟩ := ih (fun r' hr' x' => htot r' (by simp [hr']) x') x
      exact ⟨b', EitherRel.headFalse r rs x b' hb hb'⟩

theorem pipeRel_det {T : Type} :
    ∀ (rs : List (T → Bool → Prop)),
      (∀ r ∈ rs, ∀ x b b', r x b → r x b' → b = b') →
      ∀ x b b', PipeRel rs x b → PipeRel rs x b' → b = b' := by
  intro rs
  induction rs with
  | nil =>
    intro _ x b b' h1 h2
    cases h1
    cases h2
    rfl
  | cons r rs ih =>
    intro hdet x b b' h1 h2
    cases h1 with
    | headFalse _ _ _ hf1 =>
      cases h2 with
      | headFalse => rfl
      | headTrue _ _ _ _ ht2 _ =>
        exact absurd (hdet r (by simp) x false true hf1 ht2) (by simp)
    | headTrue _ _ _ _ ht1 h1' =>
      cases h2 with
      | headFalse _ _ _ hf2 =>
        exact absurd (hdet r (by simp) x false true hf2 ht1) (by simp)
      | headTrue _ _ _ _ _ h2' =>
        exact ih (fun r' hr' => hdet r' (by simp [hr'])) x b b' h1' h2'

theorem eitherRel_det {T : Type} :
    ∀ (rs : List (T → Bool → Prop)),
      (∀ r ∈ rs, ∀ x b b', r x b → r x b' → b = b') →
      ∀ x b b', EitherRel rs x b → EitherRel rs x b' → b = b' := by
  intro rs
  induction rs with
  | nil =>
    intro _ x b b' h1 h2
    cases h1
    cases h2
    rfl
  | cons r rs ih =>
    intro hdet x b b' h1 h2
    cases h1 with
    | headTrue _ _ _ ht1 =>
      cases h2 with
      | headTrue => rfl
      | headFalse _ _ _ _ hf2 _ =>
        exact absurd (hdet r (by simp) x false true hf2 ht1) (by simp)
    | headFalse _ _ _ _ hf1 h1' =>
      cases h2 with
      | headTrue _ _ _ ht2 =>
        exact absurd (hdet r (by simp) x false true hf1 ht2) (by simp)
      | headFalse _ _ _ _ _ h2' =>
        exact ih (fun r' hr' => hdet r' (by simp [hr'])) x b b' h1' h2'

end Refinements

/-- Claim C9 (purity and totality preservation): for every list of relational
refinements that are each total (some verdict exists for every input) and
deterministic (at most one verdict per input), the combined evaluations of
`pipe` and `either` are themselves total and deterministic: some verdict
exists for every input, and any two evaluations on the same input agree. -/
theorem totality_purity {T : Type} (rs : List (T → Bool → Prop))
    (htot : ∀ r ∈ rs, ∀ x, ∃ b, r x b)
    (hdet : ∀ r ∈ rs, ∀ x b b', r x b → r x b' → b = b') :
    (∀ x, ∃ b, Refinements.PipeRel rs x b) ∧
    (∀ x b b', Refinements.PipeRel rs x b → Refinements.PipeRel rs x b' → b = b') ∧
    (∀ x, ∃ b, Refinements.EitherRel rs x b) ∧
    (∀ x b b', Refinements.EitherRel rs x b → Refinements.EitherRel rs x b' → b = b') :=
  ⟨Refinements.pipeRel_total rs htot,
   Refinements.pipeRel_det rs hdet,
   Refinements.eitherRel_total rs htot,
   Refinements.eitherRel_det rs hdet⟩

/-- Witness for C9: a singleton list of the function-backed refinement
`x > 1` over `Nat`, evaluated at `5`. -/
theorem totality_purity_witness :
    ∃ b, Refinements.PipeRel [fun (x : Nat) (b : Bool) => b = decide (x > 1)] 5 b :=
  (totality_purity [fun (x : Nat) (b : Bool) => b = decide (x > 1)]
    (by
      intro r hr x
      rw [List.mem_singleton] at hr
      subst hr
      exact ⟨decide (x > 1), rfl⟩)
    (by
      intro r hr x b b' h1 h2
      rw [List.mem_singleton] at hr
      subst hr
      rw [h1, h2])).1 5
